import Mathlib

/-!
Verification of the stream-composition core of the llm-processors repository
(`src/llm_processors/core/packet.py`, `processor.py`, `operators.py`).

The Python code is shallowly embedded: packets are an immutable record of a
content value and an insertion-ordered string-keyed dictionary; a processor's
stream transformation becomes a Lean function on materialized lists (the
parallel operator materializes its input anyway, and the sequential operator
is extensionally a function of the input list); exceptions become `Except` /
explicit error components.  Python dictionaries are modelled as association
lists with Python's update semantics: an existing key keeps its position and
takes the new value, a new key is appended at the end.
-/

/-- Metadata values: the value shapes the embedded core actually stores in
`Packet.metadata` — strings (mimetype, substream_name, error_type) and a
nested metadata dictionary (the `source_metadata` entry written by
`BaseProcessor.__call__`). -/
inductive MValue where
  | mstr : String → MValue
  | mdict : List (String × MValue) → MValue

/-- A Python dict with string keys, in insertion order. -/
abbrev Metadata := List (String × MValue)

/-- First-match lookup, modelling Python dict indexing (every dictionary the
embedded code builds binds a key at most once). -/
def Metadata.find : Metadata → String → Option MValue
  | [], _ => none
  | (k, v) :: rest, key => if k = key then some v else Metadata.find rest key

/-- One entry of the position-preserving dict update: an entry bound to the
updated key receives the new value, any other entry is untouched. -/
def Metadata.updateEntry (k : String) (v : MValue) (kv : String × MValue) :
    String × MValue :=
  if kv.1 = k then (k, v) else kv

/-- Python dict update for a single key: an existing key keeps its position
and receives the new value; a fresh key is appended at the end. -/
def Metadata.insert (m : Metadata) (k : String) (v : MValue) : Metadata :=
  if (Metadata.find m k).isSome then m.map (Metadata.updateEntry k v)
  else m ++ [(k, v)]

/-- Python's double-splat merge `{**m, **kwargs}`: start from `m` and apply
the bindings of `kwargs` left to right, the right operand winning on key
conflicts. -/
def Metadata.merge (m kwargs : Metadata) : Metadata :=
  kwargs.foldl (fun acc kv => Metadata.insert acc kv.1 kv.2) m

/-- Opaque stand-in for a PIL image object: an identity plus the string
Python's `str()` would render it as. -/
structure PILImage where
  id : Nat
  strRepr : String

/-- `Packet.content`: exactly one of text, raw bytes, or an image
(packet.py line 44). -/
inductive Content where
  | text : String → Content
  | bytes : List Nat → Content
  | image : PILImage → Content

/-- The frozen dataclass `Packet` (packet.py lines 21-45): a content value
plus a metadata dictionary.  The dataclass is frozen, so the embedding as an
immutable Lean structure is exact: no operation can mutate a packet. -/
structure Packet where
  content : Content
  metadata : Metadata

/-- `Packet.with_metadata` (packet.py lines 57-74): a new packet sharing the
content, with metadata `{**self.metadata, **kwargs}`. -/
def Packet.with_metadata (p : Packet) (kwargs : Metadata) : Packet :=
  { content := p.content, metadata := Metadata.merge p.metadata kwargs }

/-- `Packet.from_text` (packet.py lines 90-109): text content with metadata
`{'mimetype': 'text/plain', **metadata}`. -/
def Packet.from_text (text : String) (metadata : Metadata) : Packet :=
  { content := Content.text text,
    metadata := Metadata.merge [("mimetype", MValue.mstr "text/plain")] metadata }

/-- `Packet.from_bytes` (packet.py lines 111-131); the call sites in the
embedded core always pass the default mimetype "application/octet-stream". -/
def Packet.from_bytes (data : List Nat) (mimetype : String) (metadata : Metadata) : Packet :=
  { content := Content.bytes data,
    metadata := Metadata.merge [("mimetype", MValue.mstr mimetype)] metadata }

/-- `Packet.from_image` (packet.py lines 133-157), in the case where PIL is
available (the guard in `_normalize_stream` only reaches it then). -/
def Packet.from_image (image : PILImage) (mimetype : String) (metadata : Metadata) : Packet :=
  { content := Content.image image,
    metadata := Metadata.merge [("mimetype", MValue.mstr mimetype)] metadata }

/-- A Python exception as the error-handling code observes it:
`type(e).__name__` and `str(e)` (processor.py lines 92-103). -/
structure Exc where
  ty : String
  msg : String

/-- The `PacketTypes` union (packet.py line 18): what a processor may yield —
a `Packet`, a `str`, `bytes`, a PIL image, or any other value (carried here
as its `str()` rendering, which is all `_normalize_stream` uses of it). -/
inductive PItem where
  | pkt : Packet → PItem
  | pstr : String → PItem
  | pbytes : List Nat → PItem
  | pimage : PILImage → PItem
  | pother : String → PItem

/-- The synthetic error packet built in `BaseProcessor.__call__`
(processor.py lines 92-103): `substream_name: 'error'`, `error_type`, the
original packet's metadata under `source_metadata` when it is non-empty, all
passed to `Packet.from_text(str(e), **error_metadata)`. -/
def mkErrorPacket (e : Exc) (p : Packet) : Packet :=
  let errorMetadata : Metadata :=
    [("substream_name", MValue.mstr "error"), ("error_type", MValue.mstr e.ty)]
  let errorMetadata :=
    if p.metadata.isEmpty then errorMetadata
    else errorMetadata ++ [("source_metadata", MValue.mdict p.metadata)]
  Packet.from_text e.msg errorMetadata

/-- `BaseProcessor.__call__` with `handle_errors=True` (processor.py lines
82-103): each input packet is fed to the underlying transform in isolation;
a raised exception becomes one error packet and processing continues.  The
transform argument models `_process_stream` run on a single-packet stream:
it either returns its yielded results or raises. -/
def runHandled (f : Packet → Except Exc (List PItem)) : List Packet → List PItem
  | [] => []
  | p :: rest =>
    (match f p with
     | Except.ok results => results
     | Except.error e => [PItem.pkt (mkErrorPacket e p)]) ++ runHandled f rest

/-- `BaseProcessor.__call__` with `handle_errors=False` (processor.py lines
77-80): results stream out until the first exception, which propagates and
aborts the stream (returned as the second component). -/
def runUnhandled (f : Packet → Except Exc (List PItem)) :
    List Packet → List PItem × Option Exc
  | [] => ([], none)
  | p :: rest =>
    match f p with
    | Except.error e => ([], some e)
    | Except.ok results =>
      let r := runUnhandled f rest
      (results ++ r.1, r.2)

/-- The default of the `handle_errors` toggle (processor.py line 45:
`def __init__(self, handle_errors: bool = True)`). -/
def defaultHandleErrors : Bool := true

/-- `BaseProcessor.__call__` (processor.py lines 55-103): dispatch on the
instance's `handle_errors` toggle. -/
def BaseProcessor.call (handleErrors : Bool) (f : Packet → Except Exc (List PItem))
    (input : List Packet) : List PItem × Option Exc :=
  if handleErrors then (runHandled f input, none) else runUnhandled f input

/-- A processor as the composition operators see it: its class name (used
for substream tagging) and its input-stream-to-output-stream behavior. -/
structure Processor where
  className : String
  run : List Packet → List PItem

/-- A leaf `BaseProcessor` instance: invocation goes through
`BaseProcessor.__call__` with the instance's `handle_errors` toggle. -/
def leafProcessor (className : String) (handleErrors : Bool)
    (f : Packet → Except Exc (List PItem)) : Processor :=
  { className := className,
    run := fun input => (BaseProcessor.call handleErrors f input).1 }

/-- A pure 1:1 leaf processor: its per-packet transform never raises and
yields exactly one packet. -/
def pureLeaf (className : String) (g : Packet → Packet) : Processor :=
  leafProcessor className defaultHandleErrors
    (fun p => Except.ok [PItem.pkt (g p)])

/-- `SequentialProcessor._normalize_stream`, one item (operators.py lines
84-95): a `Packet` passes through, a `str` becomes a text packet, `bytes`
becomes a bytes packet, a PIL image becomes an image packet when PIL is
importable (`Image is not None`), and anything else falls back to a text
packet holding its `str()` rendering. -/
def normalizeItem (hasPIL : Bool) : PItem → Packet
  | PItem.pkt p => p
  | PItem.pstr s => Packet.from_text s []
  | PItem.pbytes b => Packet.from_bytes b "application/octet-stream" []
  | PItem.pimage img =>
    if hasPIL then Packet.from_image img "image/png" []
    else Packet.from_text img.strRepr []
  | PItem.pother s => Packet.from_text s []

/-- `SequentialProcessor._normalize_stream` over a whole stream. -/
def normalizeStream (hasPIL : Bool) (items : List PItem) : List Packet :=
  items.map (normalizeItem hasPIL)

/-- `SequentialProcessor` (operators.py lines 19-69): feed the input to
`first`, normalize its output to packets, feed that to `second`, and yield
`second`'s output as is. -/
def SequentialProcessor.run (hasPIL : Bool) (first second : Processor) : Processor :=
  { className := "SequentialProcessor",
    run := fun input =>
      second.run (normalizeStream hasPIL (first.run input)) }

/-- `ParallelProcessor.__init__` (operators.py lines 118-130): constructing
with fewer than two processors raises at construction time. -/
def ParallelProcessor.init (processors : List Processor) :
    Except String (List Processor) :=
  if processors.length < 2 then
    Except.error "ParallelProcessor requires at least 2 processors"
  else Except.ok processors

/-- The branch tasks `ParallelProcessor.__call__` creates (operators.py
lines 162-168): one `asyncio.create_task` per processor, indexed by
`enumerate` — the loop never consults the materialized input, so a task is
started per branch even when `_packets` is empty. -/
def ParallelProcessor.tasks (processors : List Processor)
    (_packets : List Packet) : List (Nat × Processor) :=
  processors.enum

/-- The substream tag `f"branch_{index}_{processor.__class__.__name__}"`
(operators.py line 205). -/
def substreamTag (index : Nat) (className : String) : String :=
  "branch_" ++ Nat.repr index ++ "_" ++ className

/-- The per-result tagging step of `ParallelProcessor._run_processor`
(operators.py lines 201-207): a `Packet` result is replaced by
`result.with_metadata(substream_name=...)`; any other result is collected
untouched. -/
def tagResult (index : Nat) (className : String) : PItem → PItem
  | PItem.pkt p =>
    PItem.pkt (Packet.with_metadata p
      [("substream_name", MValue.mstr (substreamTag index className))])
  | other => other

/-- `ParallelProcessor._run_processor` (operators.py lines 176-209): run the
branch processor over a private replay of the materialized input and collect
its tagged results in production order. -/
def runProcessorBranch (processor : Processor) (packets : List Packet)
    (index : Nat) : List PItem :=
  (processor.run packets).map (tagResult index processor.className)

/-- `ParallelProcessor.__call__` (operators.py lines 132-174), parameterized
by the order in which `asyncio.as_completed` hands back the branch tasks:
each completed task's full result list is yielded as one block.  `order` is
a permutation of the branch indices; which permutation occurs depends on
branch timing (it is `[0, 1, ...]` when every branch is synchronous). -/
def ParallelProcessor.runWithOrder (processors : List Processor)
    (order : List Nat) (input : List Packet) : List PItem :=
  (order.map (fun i =>
    match processors[i]? with
    | some proc => runProcessorBranch proc input i
    | none => [])).flatten

/-- Boolean test used to group a merged parallel output by branch tag. -/
def PItem.hasTag (t : String) : PItem → Bool
  | PItem.pkt p =>
    match Metadata.find p.metadata "substream_name" with
    | some (MValue.mstr s) => decide (s = t)
    | _ => false
  | _ => false

/-- A branch task of the parallel composite, abstracted by when it produces
each collected item and when the task itself completes: `items` carries the
branch's results in production order with their production times, `finish`
is the task's completion time (at or after its last production). -/
structure TimedBranch where
  items : List (Nat × PItem)
  finish : Nat

/-- Insertion step for ordering branch tasks by completion time. -/
def insertByFinish (b : TimedBranch) : List TimedBranch → List TimedBranch
  | [] => [b]
  | c :: cs => if b.finish ≤ c.finish then b :: c :: cs else c :: insertByFinish b cs

/-- Branch tasks ordered by completion time — the order in which
`asyncio.as_completed` hands tasks back (taking completion times distinct). -/
def sortByFinish : List TimedBranch → List TimedBranch
  | [] => []
  | b :: bs => insertByFinish b (sortByFinish bs)

/-- The merge loop of `ParallelProcessor.__call__` (operators.py lines
170-174): `as_completed` yields each branch task when it completes, and the
task's entire collected result list is then yielded item by item. -/
def mergeByTaskCompletion (branches : List TimedBranch) : List PItem :=
  ((sortByFinish branches).map (fun b => b.items.map Prod.snd)).flatten

/-- Insertion step for ordering produced items by production time. -/
def insertByTime (x : Nat × PItem) : List (Nat × PItem) → List (Nat × PItem)
  | [] => [x]
  | y :: ys => if x.1 ≤ y.1 then x :: y :: ys else y :: insertByTime x ys

/-- All produced items ordered globally by production time. -/
def sortByTime : List (Nat × PItem) → List (Nat × PItem)
  | [] => []
  | x :: xs => insertByTime x (sortByTime xs)

/-- Modelled from the spec's words (section 4.4, merge/ordering guarantee):
"whichever branch produces its next item first, that item is surfaced next,
regardless of branch index" — a global ordering of all branch items by
production time.  Stated only to compare with `mergeByTaskCompletion`, the
merge the source actually implements. -/
def mergeFifoByProduction (branches : List TimedBranch) : List PItem :=
  (sortByTime ((branches.map (fun b => b.items)).flatten)).map Prod.snd

/-- Python's `str.upper()` on the ASCII strings of the spec's scenario,
character by character. -/
def pyUpper (s : String) : String := String.mk (s.data.map Char.toUpper)

/-- The uppercase transform used in the repository's docstring examples
(processor.py lines 27-33): text packets become uppercase text packets. -/
def upperTransform (p : Packet) : Packet :=
  match p.content with
  | Content.text s => Packet.from_text (pyUpper s) []
  | _ => p

/-- The append-"!" transform of the spec's concrete scenario. -/
def exclaimTransform (p : Packet) : Packet :=
  match p.content with
  | Content.text s => Packet.from_text (s ++ "!") []
  | _ => p

/-- Extract the text content of an item (empty string otherwise); used to
state content-level facts about concrete outputs. -/
def contentText : PItem → String
  | PItem.pkt p =>
    match p.content with
    | Content.text s => s
    | _ => ""
  | PItem.pstr s => s
  | _ => ""

theorem Metadata.find_append (m m' : Metadata) (k : String) :
    Metadata.find (m ++ m') k =
      match Metadata.find m k with
      | some v => some v
      | none => Metadata.find m' k := by
  induction m with
  | nil => simp [Metadata.find]
  | cons kv rest ih =>
    obtain ⟨k1, v1⟩ := kv
    by_cases h : k1 = k
    · simp [Metadata.find, h]
    · simp [Metadata.find, h, ih]

theorem Metadata.find_cons (k1 : String) (v1 : MValue) (rest : Metadata)
    (key : String) :
    Metadata.find ((k1, v1) :: rest) key
      = if k1 = key then some v1 else Metadata.find rest key := rfl

theorem Metadata.updateEntry_hit (k k1 : String) (v v1 : MValue) (h : k1 = k) :
    Metadata.updateEntry k v (k1, v1) = (k, v) := by
  unfold Metadata.updateEntry
  exact if_pos h

theorem Metadata.updateEntry_miss (k k1 : String) (v v1 : MValue) (h : ¬k1 = k) :
    Metadata.updateEntry k v (k1, v1) = (k1, v1) := by
  unfold Metadata.updateEntry
  exact if_neg h

theorem Metadata.find_map_update (m : Metadata) (k : String) (v : MValue)
    (h : (Metadata.find m k).isSome) :
    Metadata.find (m.map (Metadata.updateEntry k v)) k = some v := by
  induction m with
  | nil => simp [Metadata.find] at h
  | cons kv rest ih =>
    obtain ⟨k1, v1⟩ := kv
    rw [List.map_cons]
    by_cases hk : k1 = k
    · rw [Metadata.updateEntry_hit k k1 v v1 hk, Metadata.find_cons, if_pos rfl]
    · rw [Metadata.updateEntry_miss k k1 v v1 hk, Metadata.find_cons, if_neg hk]
      rw [Metadata.find_cons, if_neg hk] at h
      exact ih h

theorem Metadata.find_map_update_ne (m : Metadata) (k k' : String) (v : MValue)
    (h : k ≠ k') :
    Metadata.find (m.map (Metadata.updateEntry k v)) k' = Metadata.find m k' := by
  induction m with
  | nil => rfl
  | cons kv rest ih =>
    obtain ⟨k1, v1⟩ := kv
    rw [List.map_cons]
    by_cases hk : k1 = k
    · rw [Metadata.updateEntry_hit k k1 v v1 hk, Metadata.find_cons, if_neg h,
        Metadata.find_cons, if_neg (hk ▸ h : ¬k1 = k'), ih]
    · rw [Metadata.updateEntry_miss k k1 v v1 hk, Metadata.find_cons,
        Metadata.find_cons]
      by_cases hk' : k1 = k'
      · rw [if_pos hk', if_pos hk']
      · rw [if_neg hk', if_neg hk', ih]

theorem Metadata.find_insert_self (m : Metadata) (k : String) (v : MValue) :
    Metadata.find (Metadata.insert m k v) k = some v := by
  cases hm : Metadata.find m k with
  | some w =>
    have hs : (Metadata.find m k).isSome := by simp [hm]
    unfold Metadata.insert
    rw [if_pos hs]
    exact Metadata.find_map_update m k v hs
  | none =>
    have hs : ¬(Metadata.find m k).isSome := by simp [hm]
    unfold Metadata.insert
    rw [if_neg hs, Metadata.find_append, hm, Metadata.find_cons, if_pos rfl]

theorem Metadata.find_insert_of_ne (m : Metadata) (k k' : String) (v : MValue)
    (h : k ≠ k') :
    Metadata.find (Metadata.insert m k v) k' = Metadata.find m k' := by
  cases hm : Metadata.find m k with
  | some w =>
    have hs : (Metadata.find m k).isSome := by simp [hm]
    unfold Metadata.insert
    rw [if_pos hs]
    exact Metadata.find_map_update_ne m k k' v h
  | none =>
    have hs : ¬(Metadata.find m k).isSome := by simp [hm]
    unfold Metadata.insert
    rw [if_neg hs, Metadata.find_append]
    cases hm' : Metadata.find m k' with
    | some w => rfl
    | none => rw [Metadata.find_cons, if_neg h]; rfl

theorem Metadata.find_eq_none_of_not_mem (m : Metadata) (k : String)
    (h : ∀ kv ∈ m, kv.1 ≠ k) :
    Metadata.find m k = none := by
  induction m with
  | nil => rfl
  | cons kv rest ih =>
    obtain ⟨k1, v1⟩ := kv
    rw [Metadata.find_cons, if_neg (h (k1, v1) (List.mem_cons_self _ _))]
    exact ih (fun kv hkv => h kv (List.mem_cons_of_mem _ hkv))

theorem Metadata.find_merge (m kwargs : Metadata)
    (hk : (kwargs.map Prod.fst).Nodup) (key : String) :
    Metadata.find (Metadata.merge m kwargs) key =
      match Metadata.find kwargs key with
      | some v => some v
      | none => Metadata.find m key := by
  induction kwargs generalizing m with
  | nil => rfl
  | cons kv rest ih =>
    obtain ⟨k0, v0⟩ := kv
    simp only [List.map_cons, List.nodup_cons] at hk
    have hmerge : Metadata.merge m ((k0, v0) :: rest)
        = Metadata.merge (Metadata.insert m k0 v0) rest := rfl
    rw [hmerge, ih _ hk.2, Metadata.find_cons]
    by_cases h : k0 = key
    · subst h
      have hr : Metadata.find rest k0 = none :=
        Metadata.find_eq_none_of_not_mem rest k0
          (fun kv hkv hkeq => hk.1 (hkeq ▸ List.mem_map_of_mem Prod.fst hkv))
      rw [hr, if_pos rfl, Metadata.find_insert_self]
    · rw [if_neg h]
      cases hr : Metadata.find rest key with
      | some w => rfl
      | none => exact Metadata.find_insert_of_ne m k0 key v0 h

theorem runHandled_append (f : Packet → Except Exc (List PItem))
    (l1 l2 : List Packet) :
    runHandled f (l1 ++ l2) = runHandled f l1 ++ runHandled f l2 := by
  induction l1 with
  | nil => rfl
  | cons p rest ih => simp [runHandled, ih]

theorem runHandled_pure (g : Packet → Packet) (l : List Packet) :
    runHandled (fun p => Except.ok [PItem.pkt (g p)]) l
      = l.map (fun p => PItem.pkt (g p)) := by
  induction l with
  | nil => rfl
  | cons p rest ih => simp [runHandled, ih]

theorem normalizeStream_map_pkt (hasPIL : Bool) (g : Packet → Packet)
    (l : List Packet) :
    normalizeStream hasPIL (l.map (fun p => PItem.pkt (g p))) = l.map g := by
  induction l with
  | nil => rfl
  | cons p rest ih =>
    simp only [List.map_cons, normalizeStream] at ih ⊢
    rw [ih]
    rfl

theorem toDigitsCore_fuel :
    ∀ (n fuel1 fuel2 : Nat) (acc : List Char), n < fuel1 → n < fuel2 →
      Nat.toDigitsCore 10 fuel1 n acc = Nat.toDigitsCore 10 fuel2 n acc := by
  intro n
  induction n using Nat.strong_induction_on with
  | _ n ih =>
    intro fuel1 fuel2 acc h1 h2
    cases fuel1 with
    | zero => omega
    | succ f1 =>
      cases fuel2 with
      | zero => omega
      | succ f2 =>
        simp only [Nat.toDigitsCore]
        by_cases hz : n / 10 = 0
        · rw [if_pos hz, if_pos hz]
        · rw [if_neg hz, if_neg hz]
          have hpos : 0 < n := by
            rcases Nat.eq_zero_or_pos n with h | h
            · subst h; simp at hz
            · exact h
          have hd : n / 10 < n := Nat.div_lt_self hpos (by decide)
          exact ih (n / 10) hd f1 f2 _ (by omega) (by omega)

theorem toDigitsCore_acc (fuel : Nat) :
    ∀ (n : Nat) (acc : List Char),
      Nat.toDigitsCore 10 fuel n acc = Nat.toDigitsCore 10 fuel n [] ++ acc := by
  induction fuel with
  | zero => intro n acc; rfl
  | succ f ih =>
    intro n acc
    simp only [Nat.toDigitsCore]
    by_cases hz : n / 10 = 0
    · rw [if_pos hz, if_pos hz]; rfl
    · rw [if_neg hz, if_neg hz, ih (n / 10) (Nat.digitChar (n % 10) :: acc),
        ih (n / 10) [Nat.digitChar (n % 10)], List.append_assoc]
      rfl

theorem toDigits_eq_of_lt_ten (n : Nat) (h : n < 10) :
    Nat.toDigits 10 n = [Nat.digitChar n] := by
  show Nat.toDigitsCore 10 (n + 1) n [] = [Nat.digitChar n]
  simp only [Nat.toDigitsCore]
  rw [if_pos (Nat.div_eq_of_lt h), Nat.mod_eq_of_lt h]

theorem toDigits_decomp (n : Nat) (h : 10 ≤ n) :
    Nat.toDigits 10 n = Nat.toDigits 10 (n / 10) ++ [Nat.digitChar (n % 10)] := by
  have hz : ¬ n / 10 = 0 := by omega
  show Nat.toDigitsCore 10 (n + 1) n [] = _
  simp only [Nat.toDigitsCore]
  rw [if_neg hz, toDigitsCore_acc n (n / 10) [Nat.digitChar (n % 10)]]
  congr 1
  apply toDigitsCore_fuel
  · exact Nat.div_lt_self (by omega) (by decide)
  · omega

theorem toDigits_ne_nil (n : Nat) : Nat.toDigits 10 n ≠ [] := by
  by_cases h : n < 10
  · rw [toDigits_eq_of_lt_ten n h]; simp
  · rw [toDigits_decomp n (by omega)]; simp

theorem toDigits_chars (n : Nat) :
    ∀ c ∈ Nat.toDigits 10 n, ∃ m, m < 10 ∧ c = Nat.digitChar m := by
  induction n using Nat.strong_induction_on with
  | _ n ih =>
    intro c hc
    by_cases h : n < 10
    · rw [toDigits_eq_of_lt_ten n h] at hc
      simp at hc
      exact ⟨n, h, hc⟩
    · rw [toDigits_decomp n (by omega)] at hc
      rcases List.mem_append.mp hc with hc | hc
      · exact ih (n / 10) (Nat.div_lt_self (by omega) (by decide)) c hc
      · simp at hc
        exact ⟨n % 10, Nat.mod_lt _ (by decide), hc⟩

theorem digitChar_ne_underscore (m : Nat) (hm : m < 10) :
    Nat.digitChar m ≠ '_' := by
  interval_cases m <;> decide

theorem digitChar_inj (a b : Nat) (ha : a < 10) (hb : b < 10) :
    Nat.digitChar a = Nat.digitChar b → a = b := by
  interval_cases a <;> interval_cases b <;> decide

theorem toDigits_inj : ∀ (n m : Nat),
    Nat.toDigits 10 n = Nat.toDigits 10 m → n = m := by
  intro n
  induction n using Nat.strong_induction_on with
  | _ n ih =>
    intro m h
    by_cases hn : n < 10 <;> by_cases hm : m < 10
    · rw [toDigits_eq_of_lt_ten n hn, toDigits_eq_of_lt_ten m hm] at h
      simp at h
      exact digitChar_inj n m hn hm h
    · rw [toDigits_eq_of_lt_ten n hn, toDigits_decomp m (by omega)] at h
      have hlen := congrArg List.length h
      simp only [List.length_append, List.length_cons, List.length_nil] at hlen
      have hnil : Nat.toDigits 10 (m / 10) = [] := List.length_eq_zero.mp (by omega)
      exact absurd hnil (toDigits_ne_nil (m / 10))
    · rw [toDigits_decomp n (by omega), toDigits_eq_of_lt_ten m hm] at h
      have hlen := congrArg List.length h
      simp only [List.length_append, List.length_cons, List.length_nil] at hlen
      have hnil : Nat.toDigits 10 (n / 10) = [] := List.length_eq_zero.mp (by omega)
      exact absurd hnil (toDigits_ne_nil (n / 10))
    · rw [toDigits_decomp n (by omega), toDigits_decomp m (by omega)] at h
      obtain ⟨h1, h2⟩ := List.append_inj' h rfl
      have hdiv : n / 10 = m / 10 :=
        ih (n / 10) (Nat.div_lt_self (by omega) (by decide)) (m / 10) h1
      simp at h2
      have hmod : n % 10 = m % 10 :=
        digitChar_inj _ _ (Nat.mod_lt _ (by decide)) (Nat.mod_lt _ (by decide)) h2
      omega

theorem string_ext (a b : String) (h : a.data = b.data) : a = b := by
  cases a
  cases b
  cases h
  rfl

theorem nat_repr_inj (n m : Nat) (h : Nat.repr n = Nat.repr m) : n = m := by
  apply toDigits_inj
  have hd := congrArg String.data h
  exact hd

theorem repr_no_underscore (n : Nat) : '_' ∉ (Nat.repr n).data := by
  intro hmem
  have hmem' : '_' ∈ Nat.toDigits 10 n := hmem
  obtain ⟨m, hlt, hm⟩ := toDigits_chars n '_' hmem'
  exact digitChar_ne_underscore m hlt hm.symm

theorem data_append_eq (a b : String) : (a ++ b).data = a.data ++ b.data := by
  cases a
  cases b
  rfl

theorem append_cancel_chars (pre : List Char) :
    ∀ x y : List Char, pre ++ x = pre ++ y → x = y := by
  induction pre with
  | nil => intro x y h; simpa using h
  | cons c cs ih =>
    intro x y h
    simp only [List.cons_append] at h
    injection h with _ h2
    exact ih x y h2

theorem append_underscore_inj :
    ∀ (l1 l2 r1 r2 : List Char), '_' ∉ l1 → '_' ∉ l2 →
      l1 ++ '_' :: r1 = l2 ++ '_' :: r2 → l1 = l2 ∧ r1 = r2 := by
  intro l1
  induction l1 with
  | nil =>
    intro l2 r1 r2 _ h2 h
    cases l2 with
    | nil => simpa using h
    | cons c l2' =>
      exfalso
      simp only [List.nil_append, List.cons_append] at h
      injection h with hc _
      apply h2
      rw [← hc]
      exact List.mem_cons_self _ _
  | cons c1 l1' ih =>
    intro l2 r1 r2 h1 h2 h
    cases l2 with
    | nil =>
      exfalso
      simp only [List.nil_append, List.cons_append] at h
      injection h with hc _
      apply h1
      rw [hc]
      exact List.mem_cons_self _ _
    | cons c2 l2' =>
      simp only [List.cons_append] at h
      injection h with hc hrest
      obtain ⟨ha, hb⟩ := ih l2' r1 r2
        (fun hm => h1 (List.mem_cons_of_mem _ hm))
        (fun hm => h2 (List.mem_cons_of_mem _ hm)) hrest
      exact ⟨by rw [hc, ha], hb⟩

theorem substreamTag_inj (i j : Nat) (ci cj : String)
    (h : substreamTag i ci = substreamTag j cj) : i = j ∧ ci = cj := by
  have hd : (substreamTag i ci).data = (substreamTag j cj).data := congrArg _ h
  have hshape : ∀ (n : Nat) (c : String),
      (substreamTag n c).data
        = "branch_".data ++ ((Nat.repr n).data ++ '_' :: c.data) := by
    intro n c
    show ("branch_" ++ Nat.repr n ++ "_" ++ c).data = _
    rw [data_append_eq, data_append_eq, data_append_eq]
    simp [List.append_assoc]
  rw [hshape, hshape] at hd
  have hd' := append_cancel_chars "branch_".data _ _ hd
  obtain ⟨hrepr, hcs⟩ := append_underscore_inj (Nat.repr i).data (Nat.repr j).data
    ci.data cj.data (repr_no_underscore i) (repr_no_underscore j) hd'
  exact ⟨nat_repr_inj i j (string_ext _ _ hrepr), string_ext _ _ hcs⟩

/-- The stamped copy of a branch's own packet outputs: `Packet` results with
the branch tag added, non-`Packet` results dropped (the code leaves them
untagged, so they never carry a substream tag). -/
def stampBranchPacket (i : Nat) (c : String) : PItem → Option PItem
  | PItem.pkt p =>
    some (PItem.pkt (Packet.with_metadata p
      [("substream_name", MValue.mstr (substreamTag i c))]))
  | _ => none

theorem find_tagged (p : Packet) (t : String) :
    Metadata.find
      (Packet.with_metadata p [("substream_name", MValue.mstr t)]).metadata
      "substream_name" = some (MValue.mstr t) := by
  show Metadata.find
    (Metadata.merge p.metadata [("substream_name", MValue.mstr t)]) "substream_name" = _
  exact Metadata.find_insert_self p.metadata "substream_name" (MValue.mstr t)

theorem hasTag_pkt (t : String) (p : Packet) :
    PItem.hasTag t (PItem.pkt p)
      = match Metadata.find p.metadata "substream_name" with
        | some (MValue.mstr s) => decide (s = t)
        | _ => false := rfl

theorem hasTag_tagResult_pkt (t : String) (i : Nat) (c : String) (p : Packet) :
    PItem.hasTag t (tagResult i c (PItem.pkt p)) = decide (substreamTag i c = t) := by
  show PItem.hasTag t (PItem.pkt (Packet.with_metadata p
    [("substream_name", MValue.mstr (substreamTag i c))])) = _
  rw [hasTag_pkt, find_tagged]

theorem filter_tagResult_self (i : Nat) (c : String) (l : List PItem) :
    (l.map (tagResult i c)).filter (PItem.hasTag (substreamTag i c))
      = l.filterMap (stampBranchPacket i c) := by
  induction l with
  | nil => rfl
  | cons r rest ih =>
    cases r with
    | pkt p =>
      simp only [List.map_cons, List.filter_cons, List.filterMap_cons]
      rw [hasTag_tagResult_pkt, decide_eq_true rfl]
      simp [stampBranchPacket, tagResult, ih]
    | pstr s => simp [tagResult, PItem.hasTag, stampBranchPacket, ih]
    | pbytes b => simp [tagResult, PItem.hasTag, stampBranchPacket, ih]
    | pimage im => simp [tagResult, PItem.hasTag, stampBranchPacket, ih]
    | pother s => simp [tagResult, PItem.hasTag, stampBranchPacket, ih]

theorem filter_tagResult_ne (i j : Nat) (ci cj : String) (l : List PItem)
    (hne : ¬ (substreamTag j cj = substreamTag i ci)) :
    (l.map (tagResult j cj)).filter (PItem.hasTag (substreamTag i ci)) = [] := by
  induction l with
  | nil => rfl
  | cons r rest ih =>
    cases r with
    | pkt p =>
      simp only [List.map_cons, List.filter_cons]
      rw [hasTag_tagResult_pkt, decide_eq_false hne]
      exact ih
    | pstr s => simp [tagResult, PItem.hasTag, ih]
    | pbytes b => simp [tagResult, PItem.hasTag, ih]
    | pimage im => simp [tagResult, PItem.hasTag, ih]
    | pother s => simp [tagResult, PItem.hasTag, ih]

theorem filter_flatten_blocks (q : PItem → Bool) (ls : List (List PItem)) :
    (ls.flatten).filter q = (ls.map (List.filter q)).flatten := by
  induction ls with
  | nil => rfl
  | cons l rest ih => simp [List.filter_append, ih]

theorem flatten_map_nil (g : Nat → List PItem) :
    ∀ l : List Nat, (∀ x ∈ l, g x = []) → (l.map g).flatten = [] := by
  intro l
  induction l with
  | nil => intro _; rfl
  | cons j rest ih =>
    intro h
    simp [h j (List.mem_cons_self _ _),
      ih (fun x hx => h x (List.mem_cons_of_mem _ hx))]

theorem flatten_single_block (g : Nat → List PItem) (i : Nat) :
    ∀ l : List Nat, List.count i l = 1 → (∀ j ∈ l, j ≠ i → g j = []) →
      (l.map g).flatten = g i := by
  intro l
  induction l with
  | nil => intro h _; simp at h
  | cons j rest ih =>
    intro hcount hz
    by_cases hj : j = i
    · subst hj
      have hrest : List.count j rest = 0 := by
        rw [List.count_cons_self] at hcount; omega
      have hnotmem : j ∉ rest := List.count_eq_zero.mp hrest
      have hnil : ∀ x ∈ rest, g x = [] := by
        intro x hx
        by_cases hxj : x = j
        · subst hxj; exact absurd hx hnotmem
        · exact hz x (List.mem_cons_of_mem _ hx) hxj
      simp [flatten_map_nil g rest hnil]
    · have hcount' : List.count i rest = 1 := by
        rw [List.count_cons_of_ne (fun h => hj h.symm)] at hcount
        exact hcount
      simp only [List.map_cons, List.flatten_cons,
        hz j (List.mem_cons_self _ _) hj, List.nil_append]
      exact ih hcount' (fun x hx => hz x (List.mem_cons_of_mem _ hx))

theorem mem_insertByFinish (b x : TimedBranch) :
    ∀ l, x ∈ insertByFinish b l → x = b ∨ x ∈ l := by
  intro l
  induction l with
  | nil => intro h; simp [insertByFinish] at h; exact Or.inl h
  | cons c cs ih =>
    intro h
    unfold insertByFinish at h
    by_cases hb : b.finish ≤ c.finish
    · rw [if_pos hb] at h
      exact List.mem_cons.mp h
    · rw [if_neg hb] at h
      rcases List.mem_cons.mp h with h | h
      · exact Or.inr (h ▸ List.mem_cons_self c cs)
      · rcases ih h with h | h
        · exact Or.inl h
        · exact Or.inr (List.mem_cons_of_mem c h)

theorem mem_sortByFinish :
    ∀ (l : List TimedBranch) (x : TimedBranch), x ∈ sortByFinish l → x ∈ l := by
  intro l
  induction l with
  | nil => intro x h; exact absurd h (List.not_mem_nil x)
  | cons c cs ih =>
    intro x h
    rcases mem_insertByFinish c x (sortByFinish cs) h with h | h
    · exact h ▸ List.mem_cons_self c cs
    · exact List.mem_cons_of_mem c (ih x h)

/-- The identity per-packet transform of a pass-through leaf processor. -/
def idTransform : Packet → Except Exc (List PItem) :=
  fun p => Except.ok [PItem.pkt p]

theorem runHandled_id (l : List Packet) :
    runHandled idTransform l = l.map PItem.pkt := by
  induction l with
  | nil => rfl
  | cons p rest ih => simp [runHandled, idTransform, ih]

theorem normalizeStream_pkts (hasPIL : Bool) (l : List Packet) :
    normalizeStream hasPIL (l.map PItem.pkt) = l := by
  induction l with
  | nil => rfl
  | cons p rest ih =>
    simp only [List.map_cons, normalizeStream] at ih ⊢
    rw [ih]
    rfl

/-- The exception and packets used as concrete instances below. -/
def boomExc : Exc := { ty := "ValueError", msg := "boom" }

def samplePacket : Packet := Packet.from_text "hi" []

/-- A transform whose `_process_stream` raises on every packet. -/
def boomTransform : Packet → Except Exc (List PItem) :=
  fun _ => Except.error boomExc

/-- The leaf processors of the spec's concrete scenarios. -/
def upperProcessor : Processor := pureLeaf "UppercaseProcessor" upperTransform

def exclaimProcessor : Processor := pureLeaf "ExclaimProcessor" exclaimTransform

theorem mkErrorPacket_metadata_empty (e : Exc) (p : Packet)
    (h : p.metadata.isEmpty = true) :
    (mkErrorPacket e p).metadata
      = [("mimetype", MValue.mstr "text/plain"),
         ("substream_name", MValue.mstr "error"),
         ("error_type", MValue.mstr e.ty)] := by
  unfold mkErrorPacket
  rw [h]
  rfl

theorem mkErrorPacket_metadata_nonempty (e : Exc) (p : Packet)
    (h : p.metadata.isEmpty = false) :
    (mkErrorPacket e p).metadata
      = [("mimetype", MValue.mstr "text/plain"),
         ("substream_name", MValue.mstr "error"),
         ("error_type", MValue.mstr e.ty),
         ("source_metadata", MValue.mdict p.metadata)] := by
  unfold mkErrorPacket
  rw [h]
  rfl

/-- C8: for every packet `p` and metadata `kwargs` (with the distinct keys a
Python `**kwargs` call necessarily has), `with_metadata` returns a packet
with the same content whose metadata is the union of `p.metadata` and
`kwargs`, `kwargs` winning on key conflicts; the receiver is untouched — the
embedding is a pure function on an immutable (frozen-dataclass) value, so
`p.content` and `p.metadata` themselves are unchanged by construction. -/
theorem with_metadata_immutable_update (p : Packet) (kwargs : Metadata)
    (hk : (kwargs.map Prod.fst).Nodup) :
    (Packet.with_metadata p kwargs).content = p.content
    ∧ (∀ key, Metadata.find (Packet.with_metadata p kwargs).metadata key
        = match Metadata.find kwargs key with
          | some v => some v
          | none => Metadata.find p.metadata key) := by
  refine ⟨rfl, ?_⟩
  intro key
  exact Metadata.find_merge p.metadata kwargs hk key

theorem with_metadata_immutable_update_witness :
    (([("author", MValue.mstr "alice"),
       ("mimetype", MValue.mstr "text/markdown")].map Prod.fst).Nodup)
    ∧ Metadata.find (Packet.with_metadata samplePacket
        [("author", MValue.mstr "alice"),
         ("mimetype", MValue.mstr "text/markdown")]).metadata "mimetype"
      = some (MValue.mstr "text/markdown")
    ∧ Metadata.find (Packet.with_metadata samplePacket
        [("author", MValue.mstr "alice"),
         ("mimetype", MValue.mstr "text/markdown")]).metadata "author"
      = some (MValue.mstr "alice") := by
  have h := with_metadata_immutable_update samplePacket
    [("author", MValue.mstr "alice"), ("mimetype", MValue.mstr "text/markdown")]
    (by decide)
  refine ⟨by decide, ?_, ?_⟩
  · rw [h.2 "mimetype"]; rfl
  · rw [h.2 "author"]; rfl

/-- C3: constructing a parallel composite with zero or one processor fails
at construction time with the arity error (`ValueError`, the error the spec's
taxonomy names `ConfigurationError`), and with exactly two it succeeds. -/
theorem parallel_min_arity :
    ParallelProcessor.init []
      = Except.error "ParallelProcessor requires at least 2 processors"
    ∧ (∀ p : Processor, ParallelProcessor.init [p]
        = Except.error "ParallelProcessor requires at least 2 processors")
    ∧ (∀ p q : Processor, ParallelProcessor.init [p, q] = Except.ok [p, q]) :=
  ⟨rfl, fun _ => rfl, fun _ _ => rfl⟩

/-- C6: sequential composition associates — `(a then b) then c` and
`a then (b then c)` produce identical output sequences on every input (for
arbitrary processors, hence in particular for pure leaves). -/
theorem sequential_assoc (hasPIL : Bool) (a b c : Processor)
    (input : List Packet) :
    (SequentialProcessor.run hasPIL (SequentialProcessor.run hasPIL a b) c).run input
      = (SequentialProcessor.run hasPIL a (SequentialProcessor.run hasPIL b c)).run input :=
  rfl

/-- C7: for pure 1:1 leaf processors the sequential composite applies the
two transforms elementwise in index order, and the concrete scenario
`["a", "b"]` through uppercase-then-exclaim yields `["A!", "B!"]`. -/
theorem sequential_elementwise :
    (∀ (hasPIL : Bool) (na nb : String) (f g : Packet → Packet)
        (input : List Packet),
      (SequentialProcessor.run hasPIL (pureLeaf na f) (pureLeaf nb g)).run input
        = input.map (fun p => PItem.pkt (g (f p))))
    ∧ ((SequentialProcessor.run true
          (pureLeaf "UppercaseProcessor" upperTransform)
          (pureLeaf "ExclaimProcessor" exclaimTransform)).run
        [Packet.from_text "a" [], Packet.from_text "b" []]).map contentText
      = ["A!", "B!"] := by
  constructor
  · intro hasPIL na nb f g input
    show runHandled (fun p => Except.ok [PItem.pkt (g p)])
      (normalizeStream hasPIL
        (runHandled (fun p => Except.ok [PItem.pkt (f p)]) input)) = _
    rw [runHandled_pure f input, normalizeStream_map_pkt hasPIL f input,
      runHandled_pure g, List.map_map]
    rfl
  · rfl

/-- C10: inside a sequential composite, every item the first processor
yields is normalized before the second processor receives it: packets pass
unchanged, a `str` becomes a text packet, `bytes` becomes a bytes packet
with the default mimetype, a PIL image becomes an image packet when image
support is present, and any other value becomes a text packet holding its
`str()` rendering. -/
theorem normalize_stream_conversions :
    (∀ (hasPIL : Bool) (first second : Processor) (input : List Packet),
      (SequentialProcessor.run hasPIL first second).run input
        = second.run (normalizeStream hasPIL (first.run input)))
    ∧ (∀ (hasPIL : Bool) (p : Packet), normalizeItem hasPIL (PItem.pkt p) = p)
    ∧ (∀ (hasPIL : Bool) (s : String),
        (normalizeItem hasPIL (PItem.pstr s)).content = Content.text s
        ∧ Metadata.find (normalizeItem hasPIL (PItem.pstr s)).metadata "mimetype"
            = some (MValue.mstr "text/plain"))
    ∧ (∀ (hasPIL : Bool) (b : List Nat),
        (normalizeItem hasPIL (PItem.pbytes b)).content = Content.bytes b
        ∧ Metadata.find (normalizeItem hasPIL (PItem.pbytes b)).metadata "mimetype"
            = some (MValue.mstr "application/octet-stream"))
    ∧ (∀ img : PILImage,
        (normalizeItem true (PItem.pimage img)).content = Content.image img
        ∧ Metadata.find (normalizeItem true (PItem.pimage img)).metadata "mimetype"
            = some (MValue.mstr "image/png"))
    ∧ (∀ (hasPIL : Bool) (s : String),
        (normalizeItem hasPIL (PItem.pother s)).content = Content.text s) :=
  ⟨fun _ _ _ _ => rfl, fun _ _ => rfl, fun _ _ => ⟨rfl, rfl⟩,
   fun _ _ => ⟨rfl, rfl⟩, fun _ => ⟨rfl, rfl⟩, fun _ _ => rfl⟩

/-- C2 counterexample: for a concrete packet whose transform raises, the
error packet's metadata has no key named source at all — the original
metadata is nested under the key source_metadata instead, so the claim that
it is nested under a source key is false on the code. -/
theorem error_isolation_source_key_counterexample :
    runHandled boomTransform [samplePacket]
      = [PItem.pkt (mkErrorPacket boomExc samplePacket)]
    ∧ Metadata.find (mkErrorPacket boomExc samplePacket).metadata "source" = none
    ∧ Metadata.find (mkErrorPacket boomExc samplePacket).metadata "source_metadata"
        = some (MValue.mdict samplePacket.metadata) :=
  ⟨rfl, rfl, rfl⟩

/-- C2 (amended): with error handling enabled, an input packet whose
transform raises `e` yields exactly one synthetic text packet — content the
error message, metadata marking `substream_name` as `error`, recording the
type name under `error_type`, and (only when the original packet's metadata
is non-empty) nesting that metadata under the key `source_metadata` — after
which the stream continues; packets whose transform succeeds yield their
normal results in place. -/
theorem error_isolation_amended (f : Packet → Except Exc (List PItem))
    (ps qs : List Packet) (p : Packet) (e : Exc)
    (he : f p = Except.error e) :
    runHandled f (ps ++ p :: qs)
      = runHandled f ps ++ [PItem.pkt (mkErrorPacket e p)] ++ runHandled f qs
    ∧ (mkErrorPacket e p).content = Content.text e.msg
    ∧ Metadata.find (mkErrorPacket e p).metadata "error_type"
        = some (MValue.mstr e.ty)
    ∧ Metadata.find (mkErrorPacket e p).metadata "substream_name"
        = some (MValue.mstr "error")
    ∧ Metadata.find (mkErrorPacket e p).metadata "mimetype"
        = some (MValue.mstr "text/plain")
    ∧ (p.metadata.isEmpty = false →
        Metadata.find (mkErrorPacket e p).metadata "source_metadata"
          = some (MValue.mdict p.metadata))
    ∧ (∀ p' rs, f p' = Except.ok rs →
        runHandled f (ps ++ p' :: qs)
          = runHandled f ps ++ rs ++ runHandled f qs) := by
  refine ⟨?_, rfl, ?_, ?_, ?_, ?_, ?_⟩
  · rw [runHandled_append]
    simp [runHandled, he]
  · cases hpm : p.metadata.isEmpty
    · rw [mkErrorPacket_metadata_nonempty e p hpm]; rfl
    · rw [mkErrorPacket_metadata_empty e p hpm]; rfl
  · cases hpm : p.metadata.isEmpty
    · rw [mkErrorPacket_metadata_nonempty e p hpm]; rfl
    · rw [mkErrorPacket_metadata_empty e p hpm]; rfl
  · cases hpm : p.metadata.isEmpty
    · rw [mkErrorPacket_metadata_nonempty e p hpm]; rfl
    · rw [mkErrorPacket_metadata_empty e p hpm]; rfl
  · intro hpm
    rw [mkErrorPacket_metadata_nonempty e p hpm]; rfl
  · intro p' rs hok
    rw [runHandled_append]
    simp [runHandled, hok]

theorem error_isolation_amended_witness :
    runHandled boomTransform [samplePacket]
      = runHandled boomTransform []
        ++ [PItem.pkt (mkErrorPacket boomExc samplePacket)]
        ++ runHandled boomTransform []
    ∧ Metadata.find (mkErrorPacket boomExc samplePacket).metadata "source_metadata"
        = some (MValue.mdict samplePacket.metadata) := by
  have h := error_isolation_amended boomTransform [] [] samplePacket boomExc rfl
  exact ⟨h.1, h.2.2.2.2.2.1 rfl⟩

/-- `SequentialProcessor.__call__` (operators.py lines 41-69) for two leaf
children invoked through `BaseProcessor.__call__` with their own toggles.
The composite itself carries no `handle_errors` toggle — its `__init__`
(operators.py lines 30-39) stores only `first` and `second` and never calls
`super().__init__` — and its `__call__` installs no error handling of its
own: it only chains the children's calls, normalizing in between.  A
downstream child's propagating exception aborts the composite's output at
that point; an upstream child's pending exception surfaces once the
downstream child has drained the prefix produced before it. -/
def SequentialProcessor.callLeaves (hasPIL : Bool) (he1 he2 : Bool)
    (f g : Packet → Except Exc (List PItem)) (input : List Packet) :
    List PItem × Option Exc :=
  let r1 := BaseProcessor.call he1 f input
  let r2 := BaseProcessor.call he2 g (normalizeStream hasPIL r1.1)
  (r2.1, match r2.2 with
    | some e => some e
    | none => r1.2)

theorem mem_runHandled_error (g : Packet → Except Exc (List PItem))
    (l : List Packet) (p : Packet) (e : Exc) (hp : p ∈ l)
    (he : g p = Except.error e) :
    PItem.pkt (mkErrorPacket e p) ∈ runHandled g l := by
  induction l with
  | nil => exact absurd hp (List.not_mem_nil p)
  | cons q rest ih =>
    rcases List.mem_cons.mp hp with h | h
    · subst h
      simp [runHandled, he]
    · show PItem.pkt (mkErrorPacket e p)
        ∈ (match g q with
           | Except.ok results => results
           | Except.error e' => [PItem.pkt (mkErrorPacket e' q)])
          ++ runHandled g rest
      exact List.mem_append_right _ (ih h)

/-- C9 counterexample: the composites install no error isolation of their
own — `SequentialProcessor.__init__` and `ParallelProcessor.__init__` never
call `super().__init__`, and neither `__call__` consults `handle_errors` —
so a sequential composite of a default pass-through leaf and a raising leaf
whose own toggle is disabled PROPAGATES the exception to the composite's
caller with no error-tagged packet in the output, while flipping only that
child's toggle back to the default makes the same composite convert: the
conversion is the child instance's toggle at work, not a default-enabled
toggle at the composite entry point. -/
theorem composite_error_isolation_counterexample :
    SequentialProcessor.callLeaves true defaultHandleErrors false
        idTransform boomTransform [samplePacket] = ([], some boomExc)
    ∧ SequentialProcessor.callLeaves true defaultHandleErrors defaultHandleErrors
        idTransform boomTransform [samplePacket]
      = ([PItem.pkt (mkErrorPacket boomExc samplePacket)], none) :=
  ⟨rfl, rfl⟩

/-- C9 (amended): error isolation is configured by the boolean
`handle_errors` toggle of each LEAF processor instance, enabled by default
(`handle_errors: bool = True`); composite instances carry no toggle and add
no isolation at their entry points.  Invoking a composite — sequential or
parallel — whose children are default-configured leaves converts a child's
per-packet exception into an error-tagged packet in the composite's output
(in the parallel case additionally stamped with the branch's substream tag)
rather than propagating it; a child whose toggle is disabled propagates its
exception through the composite to the caller. -/
theorem composite_error_isolation_amended (hasPIL : Bool) (name1 name2 : String)
    (g : Packet → Except Exc (List PItem)) (ps qs : List Packet) (p : Packet)
    (e : Exc) (he : g p = Except.error e) :
    defaultHandleErrors = true
    ∧ SequentialProcessor.callLeaves hasPIL defaultHandleErrors defaultHandleErrors
        idTransform g (ps ++ p :: qs)
        = (runHandled g ps ++ [PItem.pkt (mkErrorPacket e p)] ++ runHandled g qs,
           none)
    ∧ (SequentialProcessor.run hasPIL
          (leafProcessor name1 defaultHandleErrors idTransform)
          (leafProcessor name2 defaultHandleErrors g)).run (ps ++ p :: qs)
        = runHandled g ps ++ [PItem.pkt (mkErrorPacket e p)] ++ runHandled g qs
    ∧ (∀ (processors : List Processor) (order : List Nat) (i : Nat),
        processors[i]? = some (leafProcessor name2 defaultHandleErrors g) →
        order.Perm (List.range processors.length) →
        PItem.pkt (Packet.with_metadata (mkErrorPacket e p)
            [("substream_name", MValue.mstr (substreamTag i name2))])
          ∈ ParallelProcessor.runWithOrder processors order (ps ++ p :: qs))
    ∧ SequentialProcessor.callLeaves hasPIL defaultHandleErrors false
        idTransform g [p] = ([], some e) := by
  refine ⟨rfl, ?_, ?_, ?_, ?_⟩
  · have hcall : SequentialProcessor.callLeaves hasPIL defaultHandleErrors
        defaultHandleErrors idTransform g (ps ++ p :: qs)
        = (runHandled g (normalizeStream hasPIL
            (runHandled idTransform (ps ++ p :: qs))), none) := rfl
    rw [hcall, runHandled_id, normalizeStream_pkts, runHandled_append]
    simp [runHandled, he]
  · show (leafProcessor name2 defaultHandleErrors g).run
      (normalizeStream hasPIL
        ((leafProcessor name1 defaultHandleErrors idTransform).run (ps ++ p :: qs)))
      = _
    show runHandled g (normalizeStream hasPIL
      (runHandled idTransform (ps ++ p :: qs))) = _
    rw [runHandled_id, normalizeStream_pkts, runHandled_append]
    simp [runHandled, he]
  · intro processors order i hpi horder
    have hi : i < processors.length := by
      by_contra hge
      rw [List.getElem?_eq_none (by omega)] at hpi
      cases hpi
    have hio : i ∈ order :=
      horder.mem_iff.mpr (List.mem_range.mpr hi)
    have hmem : p ∈ ps ++ p :: qs :=
      List.mem_append_right ps (List.mem_cons_self p qs)
    unfold ParallelProcessor.runWithOrder
    rw [List.mem_flatten]
    refine ⟨runProcessorBranch (leafProcessor name2 defaultHandleErrors g)
      (ps ++ p :: qs) i, ?_, ?_⟩
    · rw [List.mem_map]
      exact ⟨i, hio, by simp [hpi]⟩
    · unfold runProcessorBranch
      rw [List.mem_map]
      refine ⟨PItem.pkt (mkErrorPacket e p), ?_, rfl⟩
      show PItem.pkt (mkErrorPacket e p) ∈ runHandled g (ps ++ p :: qs)
      exact mem_runHandled_error g (ps ++ p :: qs) p e hmem he
  · have hcall : SequentialProcessor.callLeaves hasPIL defaultHandleErrors false
        idTransform g [p]
        = ((runUnhandled g [p]).1,
           match (runUnhandled g [p]).2 with
           | some e' => some e'
           | none => none) := rfl
    rw [hcall]
    simp [runUnhandled, he]

theorem composite_error_isolation_amended_witness :
    SequentialProcessor.callLeaves true defaultHandleErrors defaultHandleErrors
        idTransform boomTransform [samplePacket]
      = (runHandled boomTransform []
          ++ [PItem.pkt (mkErrorPacket boomExc samplePacket)]
          ++ runHandled boomTransform [], none)
    ∧ PItem.pkt (Packet.with_metadata (mkErrorPacket boomExc samplePacket)
          [("substream_name", MValue.mstr (substreamTag 1 "ChatProcessor"))])
        ∈ ParallelProcessor.runWithOrder
            [upperProcessor,
             leafProcessor "ChatProcessor" defaultHandleErrors boomTransform]
            [1, 0] [samplePacket]
    ∧ SequentialProcessor.callLeaves true defaultHandleErrors false
        idTransform boomTransform [samplePacket] = ([], some boomExc) := by
  have h := composite_error_isolation_amended true "NoopProcessor" "ChatProcessor"
    boomTransform [] [] samplePacket boomExc rfl
  exact ⟨h.2.1,
    h.2.2.2.1 [upperProcessor,
      leafProcessor "ChatProcessor" defaultHandleErrors boomTransform] [1, 0] 1
      rfl (by decide),
    h.2.2.2.2⟩

/-- C4 counterexample: on an EMPTY input, `ParallelProcessor.__call__` still
creates one branch task per processor — the `create_task` loop (operators.py
lines 163-168) iterates over `self.processors` without consulting the
materialized input — so "completes without starting any branch tasks" is
false on the code (the output is indeed empty and no exception is raised). -/
theorem parallel_empty_input_counterexample :
    (ParallelProcessor.tasks [upperProcessor, exclaimProcessor] []).length = 2
    ∧ ¬ (ParallelProcessor.tasks [upperProcessor, exclaimProcessor] []).length = 0
    ∧ ParallelProcessor.runWithOrder [upperProcessor, exclaimProcessor] [0, 1] [] = [] := by
  refine ⟨rfl, by decide, rfl⟩

/-- C4 (amended): a parallel composite on an empty input yields an empty
output sequence and raises no exception (every branch that yields nothing on
an empty input — as every per-packet error-handling processor does —
contributes nothing), but the composite still starts one branch task per
processor, not zero. -/
theorem parallel_empty_input_amended (processors : List Processor)
    (order : List Nat) (horder : order.Perm (List.range processors.length))
    (hbranches : ∀ proc ∈ processors, proc.run [] = []) :
    ParallelProcessor.runWithOrder processors order [] = []
    ∧ (ParallelProcessor.tasks processors []).length = processors.length := by
  constructor
  · unfold ParallelProcessor.runWithOrder
    apply flatten_map_nil
    intro j hj
    cases hpj : processors[j]? with
    | none => simp [hpj]
    | some proc =>
      simp only [hpj]
      unfold runProcessorBranch
      rw [hbranches proc (List.getElem?_mem hpj)]
      rfl
  · exact List.enum_length

theorem parallel_empty_input_amended_witness :
    ([0, 1].Perm (List.range 2))
    ∧ ParallelProcessor.runWithOrder [upperProcessor, exclaimProcessor] [0, 1] [] = []
    ∧ (ParallelProcessor.tasks [upperProcessor, exclaimProcessor] []).length = 2 := by
  have hb : ∀ proc ∈ [upperProcessor, exclaimProcessor], proc.run [] = [] := by
    intro proc hp
    rcases List.mem_cons.mp hp with h | hp
    · subst h; rfl
    · rcases List.mem_cons.mp hp with h | hp
      · subst h; rfl
      · exact absurd hp (List.not_mem_nil _)
  have h := parallel_empty_input_amended [upperProcessor, exclaimProcessor]
    [0, 1] (by decide) hb
  exact ⟨by decide, h.1, h.2⟩

/-- A branch finishing late (time 10) whose single item is produced first
(time 1), and a branch finishing early (time 3) whose single item is
produced second (time 2). -/
def earlyItemBranch : TimedBranch :=
  { items := [(1, PItem.pstr "early")], finish := 10 }

def lateItemBranch : TimedBranch :=
  { items := [(2, PItem.pstr "late")], finish := 3 }

/-- C1 counterexample: the code's merge yields whole branch result lists in
task-completion order, so the item produced FIRST (time 1, in the branch
that completes last) is surfaced SECOND — item-level FIFO-by-production, as
the claim states it, does not hold. -/
theorem parallel_merge_order_counterexample :
    mergeByTaskCompletion [earlyItemBranch, lateItemBranch]
      = [PItem.pstr "late", PItem.pstr "early"]
    ∧ mergeFifoByProduction [earlyItemBranch, lateItemBranch]
      = [PItem.pstr "early", PItem.pstr "late"]
    ∧ ¬ mergeByTaskCompletion [earlyItemBranch, lateItemBranch]
        = mergeFifoByProduction [earlyItemBranch, lateItemBranch] := by
  refine ⟨rfl, rfl, ?_⟩
  intro h
  have h2 := congrArg (List.map contentText) h
  rw [show (mergeByTaskCompletion [earlyItemBranch, lateItemBranch]).map contentText
      = ["late", "early"] from rfl,
    show (mergeFifoByProduction [earlyItemBranch, lateItemBranch]).map contentText
      = ["early", "late"] from rfl] at h2
  exact absurd h2 (by decide)

/-- C1 (amended): the merged output is yielded branch-by-branch in
task-completion order — the branch whose task completes first has its
ENTIRE collected result list surfaced first, in that branch's own production
order, before any item of a later-completing branch; items of different
branches are never interleaved (deterministic for fixed completion times,
and in particular when branch processors are synchronous). -/
theorem parallel_merge_amended (b : TimedBranch) (bs : List TimedBranch)
    (hmin : ∀ c ∈ bs, b.finish < c.finish) :
    mergeByTaskCompletion (b :: bs)
      = b.items.map Prod.snd ++ mergeByTaskCompletion bs := by
  have hsort : sortByFinish (b :: bs) = b :: sortByFinish bs := by
    show insertByFinish b (sortByFinish bs) = _
    cases hs : sortByFinish bs with
    | nil => rfl
    | cons c cs =>
      have hc : c ∈ bs := mem_sortByFinish bs c (by rw [hs]; exact List.mem_cons_self c cs)
      unfold insertByFinish
      rw [if_pos (Nat.le_of_lt (hmin c hc))]
  unfold mergeByTaskCompletion
  rw [hsort, List.map_cons, List.flatten_cons]

theorem parallel_merge_amended_witness :
    (∀ c ∈ [earlyItemBranch], lateItemBranch.finish < c.finish)
    ∧ mergeByTaskCompletion [lateItemBranch, earlyItemBranch]
        = lateItemBranch.items.map Prod.snd
          ++ mergeByTaskCompletion [earlyItemBranch] := by
  have hmin : ∀ c ∈ [earlyItemBranch], lateItemBranch.finish < c.finish := by
    intro c hc
    rcases List.mem_cons.mp hc with h | h
    · subst h; decide
    · exact absurd h (List.not_mem_nil _)
  exact ⟨hmin, parallel_merge_amended lateItemBranch [earlyItemBranch] hmin⟩

/-- C5: in the merged output of a parallel composite, every `Packet` item
carries a non-null substream tag — stamped via `with_metadata`, combining
the branch index with the branch processor's class name; the tag determines
the branch (index injectivity); and filtering the merged output by branch
`i`'s tag reconstructs exactly branch `i`'s own packet output sequence, each
packet with the tag stamped on, in the branch's own order — for every
task-completion order the merge loop may see. -/
theorem parallel_substream_tagging (processors : List Processor)
    (order : List Nat) (input : List Packet)
    (horder : order.Perm (List.range processors.length)) :
    (∀ item ∈ ParallelProcessor.runWithOrder processors order input,
      ∀ p, item = PItem.pkt p →
        ∃ i proc, processors[i]? = some proc
          ∧ Metadata.find p.metadata "substream_name"
              = some (MValue.mstr (substreamTag i proc.className)))
    ∧ (∀ i j ci cj, substreamTag i ci = substreamTag j cj → i = j)
    ∧ (∀ i proc, processors[i]? = some proc →
        (ParallelProcessor.runWithOrder processors order input).filter
            (PItem.hasTag (substreamTag i proc.className))
          = (proc.run input).filterMap (stampBranchPacket i proc.className)) := by
  refine ⟨?_, ?_, ?_⟩
  · intro item hmem p hp
    unfold ParallelProcessor.runWithOrder at hmem
    rw [List.mem_flatten] at hmem
    obtain ⟨lb, hlb, hitem⟩ := hmem
    rw [List.mem_map] at hlb
    obtain ⟨j, hj, hlbeq⟩ := hlb
    subst hlbeq
    cases hpj : processors[j]? with
    | none => simp [hpj] at hitem
    | some proc =>
      simp only [hpj] at hitem
      refine ⟨j, proc, hpj, ?_⟩
      unfold runProcessorBranch at hitem
      rw [List.mem_map] at hitem
      obtain ⟨r, _, hre⟩ := hitem
      cases r with
      | pkt q =>
        rw [← hre] at hp
        have hq : PItem.pkt (Packet.with_metadata q
            [("substream_name", MValue.mstr (substreamTag j proc.className))])
            = PItem.pkt p := hp
        injection hq with hq
        rw [← hq]
        exact find_tagged q _
      | pstr s => rw [← hre] at hp; exact absurd hp (by simp [tagResult])
      | pbytes bt => rw [← hre] at hp; exact absurd hp (by simp [tagResult])
      | pimage im => rw [← hre] at hp; exact absurd hp (by simp [tagResult])
      | pother s => rw [← hre] at hp; exact absurd hp (by simp [tagResult])
  · intro i j ci cj htag
    exact (substreamTag_inj i j ci cj htag).1
  · intro i proc hproc
    have hi : i < processors.length := by
      by_contra hge
      rw [List.getElem?_eq_none (by omega)] at hproc
      cases hproc
    have hcount : List.count i order = 1 := by
      rw [horder.count_eq i]
      exact List.count_eq_one_of_mem (List.nodup_range _) (List.mem_range.mpr hi)
    unfold ParallelProcessor.runWithOrder
    rw [filter_flatten_blocks, List.map_map]
    refine (flatten_single_block _ i order hcount ?_).trans ?_
    · intro j hj hne
      show ((match processors[j]? with
        | some procj => runProcessorBranch procj input j
        | none => []).filter (PItem.hasTag (substreamTag i proc.className))) = []
      cases hpj : processors[j]? with
      | none => rfl
      | some procj =>
        unfold runProcessorBranch
        apply filter_tagResult_ne
        intro heq
        exact hne ((substreamTag_inj _ _ _ _ heq).1)
    · show ((match processors[i]? with
        | some proci => runProcessorBranch proci input i
        | none => []).filter (PItem.hasTag (substreamTag i proc.className)))
        = (proc.run input).filterMap (stampBranchPacket i proc.className)
      rw [hproc]
      unfold runProcessorBranch
      exact filter_tagResult_self i proc.className (proc.run input)

theorem parallel_substream_tagging_witness :
    ([1, 0].Perm (List.range 2))
    ∧ (ParallelProcessor.runWithOrder [upperProcessor, exclaimProcessor] [1, 0]
          [Packet.from_text "x" []]).filter
        (PItem.hasTag (substreamTag 0 "UppercaseProcessor"))
        = (upperProcessor.run [Packet.from_text "x" []]).filterMap
            (stampBranchPacket 0 "UppercaseProcessor") := by
  have h := parallel_substream_tagging [upperProcessor, exclaimProcessor] [1, 0]
    [Packet.from_text "x" []] (by decide)
  exact ⟨by decide, h.2.2 0 upperProcessor rfl⟩
